import Mathlib

/-!
Formal model of the Retrieval Core of the health-enrollment-assistant
ingestion pipeline (`src/ingestion/chunker.py`, `metadata_tagger.py`,
`faiss_indexer.py`), as a shallow embedding in Lean.

Strings are modelled as `List Char`.  Python's `str.strip()` / regex `\s`
are modelled over the ASCII whitespace characters, which is what the
repository's inputs use.  Embedding scalars (numpy `float32`) are modelled
as rationals: every claim checked here concerns counting, ordering and
positional correspondence, none concerns floating-point rounding.
Bounded `while` loops are modelled with an explicit fuel argument that is
always instantiated with a sufficient value (`text.length`); the
termination claim C9 is discharged by proving the scan is fuel-insensitive
from that value on.
-/

/-- ASCII whitespace, the model of Python's `str.strip()` character class
and of the regex class `\s` for the pipeline's ASCII file names and text. -/
def isSpace (c : Char) : Bool :=
  c = ' ' || c = '\t' || c = '\n' || c = '\r' || c = '\x0b' || c = '\x0c'

/-- Model of Python `s.strip()`: drop ASCII whitespace from both ends. -/
def pyStrip (l : List Char) : List Char :=
  ((l.dropWhile isSpace).reverse.dropWhile isSpace).reverse

/-- Model of Python `s[-n:]` for `n ≥ 1`: the length-`n` suffix (the whole
list when it is shorter than `n`). -/
def lastN (n : Nat) (l : List α) : List α := l.drop (l.length - n)

/-- Advance of the simple chunker's window per iteration
(`chunker.py` lines 62-66): `start = end - overlap`, overridden to
`start = end` when `overlap >= chunk_size`. -/
def advance (chunk_size overlap : Nat) : Nat :=
  if overlap ≥ chunk_size then chunk_size else chunk_size - overlap

/-- Start positions visited by the `while start < len(text)` loop of
`chunk_text` (`chunker.py` lines 50-67), with explicit fuel; `a` is the
per-iteration advance. -/
def chunkStarts (len a : Nat) : Nat → Nat → List Nat
  | 0, _ => []
  | fuel + 1, start =>
    if start < len then start :: chunkStarts len a fuel (start + a) else []

/-- The window `text[start:start+chunk_size]` extracted at each visited
start position (`chunker.py` lines 52-55), before the whitespace filter. -/
def simpleWindows (text : List Char) (chunk_size overlap : Nat) : List (List Char) :=
  (chunkStarts text.length (advance chunk_size overlap) text.length 0).map
    (fun s => (text.drop s).take chunk_size)

/-- Model of `chunk_text` (`chunker.py` lines 15-68): empty input gives `[]`;
input no longer than `chunk_size` is returned whole; otherwise the sliding
windows are emitted in order, skipping windows that are whitespace-only
(`if chunk.strip()`). -/
def chunk_text (text : List Char) (chunk_size overlap : Nat) : List (List Char) :=
  if text.length = 0 then []
  else if text.length ≤ chunk_size then [text]
  else (simpleWindows text chunk_size overlap).filter (fun c => decide (pyStrip c ≠ []))

example : chunk_text [] 3 1 = [] := by decide
example : chunk_text ['a', 'b'] 3 1 = [['a', 'b']] := by decide
example : chunk_text ['a', 'b', 'c', 'd', 'e'] 3 1 =
    [['a', 'b', 'c'], ['c', 'd', 'e'], ['e']] := by decide
example : chunk_text [' '] 500 50 = [[' ']] := by decide
example : chunk_text ['a', ' ', '\t', 'b'] 2 1 =
    [['a', ' '], ['\t', 'b'], ['b']] := by decide

/-- Sentence-ending punctuation of the smart chunker's split pattern
`([.!?:]\s+)` (`chunker.py` line 106). -/
def isSentencePunct (c : Char) : Bool :=
  c = '.' || c = '!' || c = '?' || c = ':'

/-- Whether a list starts with a whitespace character (the `\s+` part of
the split pattern must match at least one character). -/
def headIsSpace : List Char → Bool
  | [] => false
  | c :: _ => isSpace c

/-- Model of `re.split(r'([.!?:]\s+)', text)` followed by rejoining each
piece with its separator (`chunker.py` lines 106-109): scan left to right;
at a punctuation character followed by whitespace, close the current
sentence including the punctuation and the maximal whitespace run, and
continue after it.  The fuel is always called with `l.length`, which
suffices since every step consumes at least one character. -/
def splitSentencesAux (fuel : Nat) (l : List Char) (acc : List Char) : List (List Char) :=
  match fuel, l with
  | _, [] => [acc.reverse]
  | 0, l => [acc.reverse ++ l]
  | fuel + 1, c :: rest =>
    if isSentencePunct c && headIsSpace rest then
      (acc.reverse ++ c :: rest.takeWhile isSpace) ::
        splitSentencesAux fuel (rest.dropWhile isSpace) []
    else
      splitSentencesAux fuel rest (c :: acc)

/-- Sentence units of the smart chunker, with whitespace-only units removed
(`chunker.py` line 110: keeps a unit only if `s.strip()` is truthy). -/
def splitSentences (text : List Char) : List (List Char) :=
  (splitSentencesAux text.length text []).filter (fun s => decide (pyStrip s ≠ []))

/-- One iteration of the sentence-packing loop of `chunk_text_smart`
(`chunker.py` lines 115-133).  The state is `(chunks so far, current_chunk)`. -/
def smartStep (chunk_size overlap : Nat)
    (st : List (List Char) × List Char) (sentence : List Char) :
    List (List Char) × List Char :=
  if chunk_size < st.2.length + sentence.length then
    if pyStrip st.2 ≠ [] then
      (st.1 ++ [pyStrip st.2],
        if 0 < overlap ∧ overlap < st.2.length
          then lastN overlap st.2 ++ sentence
          else sentence)
    else (st.1, sentence)
  else (st.1, st.2 ++ sentence)

/-- Model of `chunk_text_smart` (`chunker.py` lines 71-139): the early
returns for empty and short input, then the sentence-packing fold with a
final flush of the last non-whitespace `current_chunk`. -/
def chunk_text_smart (text : List Char) (chunk_size overlap : Nat) : List (List Char) :=
  if text.length = 0 then []
  else if text.length ≤ chunk_size then [text]
  else
    let st := (splitSentences text).foldl (smartStep chunk_size overlap) ([], [])
    if pyStrip st.2 ≠ [] then st.1 ++ [pyStrip st.2] else st.1

example : splitSentences (("First sentence. Second sentence. Third sentence.").toList) =
    [("First sentence. ").toList, ("Second sentence. ").toList,
      ("Third sentence.").toList] := by decide
example : chunk_text_smart (("First sentence. Second sentence. Third sentence.").toList)
    30 5 =
    [("First sentence.").toList, ("nce. Second sentence.").toList,
      ("nce. Third sentence.").toList] := by decide
example : chunk_text_smart [' '] 500 50 = [[' ']] := by decide
example : chunk_text_smart (("a. . b").toList) 3 0 =
    [("a.").toList, (". b").toList] := by decide

/-- Decimal digits of a positive number, most significant first, with fuel
(always called with enough fuel to finish; `n + 1` suffices). -/
def natDigitsAux : Nat → Nat → List Char
  | 0, _ => []
  | fuel + 1, n =>
    if n = 0 then [] else natDigitsAux fuel (n / 10) ++ [Nat.digitChar (n % 10)]

/-- Model of Python's `str(n)` / f-string rendering of a non-negative int. -/
def natRepr (n : Nat) : List Char :=
  if n = 0 then ['0'] else natDigitsAux (n + 1) n

example : natRepr 0 = ['0'] := by decide
example : natRepr 23 = ['2', '3'] := by decide
example : natRepr 120 = ['1', '2', '0'] := by decide

/-- Model of Python `s.replace(pat, '')` for a non-empty pattern: scan left
to right, dropping each occurrence of `pat` and continuing after it.  The
fuel is always called with `l.length`, which suffices since every step
consumes at least one character. -/
def stripSubFuel (pat : List Char) : Nat → List Char → List Char
  | _, [] => []
  | 0, l => l
  | fuel + 1, c :: rest =>
    if pat.isPrefixOf (c :: rest) && !pat.isEmpty then
      stripSubFuel pat fuel ((c :: rest).drop pat.length)
    else
      c :: stripSubFuel pat fuel rest

/-- Remove every occurrence of `pat` from `l` (Python `l.replace(pat, '')`). -/
def stripSub (pat l : List Char) : List Char := stripSubFuel pat l.length l

example : stripSub ((".pdf").toList) (("a.pdf.pdfb.pdf").toList) = ['a', 'b'] := by decide

/-- Characters kept unchanged by the chunk-id sanitizer, the regex class
`[a-zA-Z0-9-_]` of `metadata_tagger.py` line 139. -/
def isIdSafe (c : Char) : Bool :=
  c.isAlpha || c.isDigit || c = '-' || c = '_'

/-- Model of `generate_chunk_id` (`metadata_tagger.py` lines 115-141):
drop `.pdf` and `.PDF`, truncate the source to 20 characters, replace every
character outside `[a-zA-Z0-9-_]` by `-`, then format
`{prefix}-p{page_num}-c{chunk_index}`. -/
def generate_chunk_id (source : List Char) (page_num chunk_index : Nat) : List Char :=
  let p := stripSub ((".PDF").toList) (stripSub ((".pdf").toList) source)
  let p := p.take 20
  let p := p.map (fun c => if isIdSafe c then c else '-')
  p ++ '-' :: 'p' :: natRepr page_num ++ '-' :: 'c' :: natRepr chunk_index

example : generate_chunk_id (("NC-form").toList) 23 2 = (("NC-form-p23-c2").toList) := by
  decide
example : generate_chunk_id (("a b!.pdf").toList) 1 0 = (("a-b--p1-c0").toList) := by
  decide

/-- Python regex word character `\w` (`[a-zA-Z0-9_]` for the pipeline's
ASCII file names), used for the `\b` word boundaries of the state pattern. -/
def isWordChar (c : Char) : Bool := c.isAlpha || c.isDigit || c = '_'

/-- The 50 state abbreviations of `metadata_tagger.py` lines 34-40, in
source order (the first matching entry wins). -/
def stateCodes : List (List Char) :=
  List.map String.toList
    ["AL", "AK", "AZ", "AR", "CA", "CO", "CT", "DE", "FL", "GA",
     "HI", "ID", "IL", "IN", "IA", "KS", "KY", "LA", "ME", "MD",
     "MA", "MI", "MN", "MS", "MO", "MT", "NE", "NV", "NH", "NJ",
     "NM", "NY", "NC", "ND", "OH", "OK", "OR", "PA", "RI", "SC",
     "SD", "TN", "TX", "UT", "VT", "VA", "WA", "WV", "WI", "WY"]

/-- The state-name-to-abbreviation mapping of `metadata_tagger.py`
lines 43-57, in source (dict insertion) order. -/
def stateNamePairs : List (List Char × List Char) :=
  List.map (fun p => (String.toList p.1, String.toList p.2))
    [("alabama", "AL"), ("alaska", "AK"), ("arizona", "AZ"), ("arkansas", "AR"),
     ("california", "CA"), ("colorado", "CO"), ("connecticut", "CT"), ("delaware", "DE"),
     ("florida", "FL"), ("georgia", "GA"), ("hawaii", "HI"), ("idaho", "ID"),
     ("illinois", "IL"), ("indiana", "IN"), ("iowa", "IA"), ("kansas", "KS"),
     ("kentucky", "KY"), ("louisiana", "LA"), ("maine", "ME"), ("maryland", "MD"),
     ("massachusetts", "MA"), ("michigan", "MI"), ("minnesota", "MN"), ("mississippi", "MS"),
     ("missouri", "MO"), ("montana", "MT"), ("nebraska", "NE"), ("nevada", "NV"),
     ("new hampshire", "NH"), ("new jersey", "NJ"), ("new mexico", "NM"), ("new york", "NY"),
     ("north carolina", "NC"), ("north dakota", "ND"), ("ohio", "OH"), ("oklahoma", "OK"),
     ("oregon", "OR"), ("pennsylvania", "PA"), ("rhode island", "RI"), ("south carolina", "SC"),
     ("south dakota", "SD"), ("tennessee", "TN"), ("texas", "TX"), ("utah", "UT"),
     ("vermont", "VT"), ("virginia", "VA"), ("washington", "WA"), ("west virginia", "WV"),
     ("wisconsin", "WI"), ("wyoming", "WY")]

/-- Scanner for the `\b{state}\b` alternative of the state pattern
(`metadata_tagger.py` line 64): `st` occurs at some position whose
neighbours on both sides are absent or non-word characters.  `prev` is the
character just before the current scan position. -/
def wbMatch (st : List Char) (prev : Option Char) : List Char → Bool
  | [] => false
  | c :: rest =>
    (st.isPrefixOf (c :: rest)
      && (match prev with | none => true | some p => !isWordChar p)
      && (match (c :: rest).drop st.length with
          | [] => true
          | d :: _ => !isWordChar d))
    || wbMatch st (some c) rest

/-- Boolean contiguous-substring test (Python's `pat in s`). -/
def containsSub (pat : List Char) : List Char → Bool
  | [] => pat.isEmpty
  | c :: rest => pat.isPrefixOf (c :: rest) || containsSub pat rest

example : containsSub (("faq").toList) (("x-faq-y").toList) = true := by decide
example : containsSub (("faq").toList) (("x-fq-y").toList) = false := by decide

/-- Match of the alternation `\b{st}\b|_{st}_|_{st}\.|-{st}-|-{st}\.`
against an (upper-cased) file name. -/
def stateMatches (st f : List Char) : Bool :=
  wbMatch st none f
    || containsSub ('_' :: st ++ ['_']) f
    || containsSub ('_' :: st ++ ['.']) f
    || containsSub ('-' :: st ++ ['-']) f
    || containsSub ('-' :: st ++ ['.']) f

/-- Model of `extract_state_from_filename` (`metadata_tagger.py`
lines 18-74): first match a state abbreviation against the upper-cased
name, then a full state name against the lower-cased name, else `none`. -/
def extract_state_from_filename (filename : List Char) : Option (List Char) :=
  let up := filename.map Char.toUpper
  match stateCodes.find? (fun st => stateMatches st up) with
  | some st => some st
  | none =>
    let low := filename.map Char.toLower
    (stateNamePairs.find? (fun p => containsSub p.1 low)).map (fun p => p.2)

/-- Keyword sets of `extract_doc_type_from_filename`
(`metadata_tagger.py` lines 94-112), checked in source order. -/
def docTypeKeywordTable : List (List (List Char) × List Char) :=
  List.map (fun p => (List.map String.toList p.1, String.toList p.2))
    [(["formulary", "drug", "medication", "tier"], "formulary"),
     (["faq", "question", "answer"], "faq"),
     (["network", "provider", "doctor", "physician"], "network"),
     (["summary", "benefit", "coverage"], "summary")]

/-- Model of `extract_doc_type_from_filename` (`metadata_tagger.py`
lines 77-112): the first keyword group with a member occurring in the
lower-cased name decides the type, defaulting to `unknown`. -/
def extract_doc_type_from_filename (filename : List Char) : List Char :=
  let low := filename.map Char.toLower
  match docTypeKeywordTable.find? (fun p => p.1.any (fun kw => containsSub kw low)) with
  | some p => p.2
  | none => ("unknown").toList

example : extract_state_from_filename
    (("Oscar_4T_NC_STND_Member_Doc__January_2026__as_of_11182025.pdf").toList) =
    some (("NC").toList) := by decide
example : extract_state_from_filename (("Texas-Drug-Formulary-2026.pdf").toList) =
    some (("TX").toList) := by decide
example : extract_state_from_filename (("NC-formulary.pdf").toList) =
    some (("NC").toList) := by decide
example : extract_doc_type_from_filename (("Texas-Drug-Formulary-2026.pdf").toList) =
    (("formulary").toList) := by decide
example : extract_doc_type_from_filename (("florida-faq-2026.pdf").toList) =
    (("faq").toList) := by decide
example : extract_doc_type_from_filename (("unknown-document.pdf").toList) =
    (("unknown").toList) := by decide

/-- An input chunk record as produced by `chunker.chunk_pages`
(`chunker.py` lines 188-193): exactly the fields
`text`, `source`, `page_num`, `chunk_index`. -/
structure RawChunk where
  text : List Char
  source : List Char
  page_num : Nat
  chunk_index : Nat
deriving DecidableEq

/-- The same record after `add_metadata_to_chunk`: the four original fields
plus exactly `state`, `doc_type` and `chunk_id`. -/
structure TaggedChunk where
  text : List Char
  source : List Char
  page_num : Nat
  chunk_index : Nat
  state : List Char
  doc_type : List Char
  chunk_id : List Char
deriving DecidableEq

/-- Model of `add_metadata_to_chunk` (`metadata_tagger.py` lines 144-179):
fill `state` (caller-supplied, else inferred, with Python falsy values
mapped to `unknown`), `doc_type` (caller-supplied, else inferred) and
`chunk_id`, leaving the original four fields untouched. -/
def add_metadata_to_chunk (chunk : RawChunk)
    (state doc_type : Option (List Char)) : TaggedChunk :=
  let st := match state with
    | some s => some s
    | none => extract_state_from_filename chunk.source
  let dt := match doc_type with
    | some d => d
    | none => extract_doc_type_from_filename chunk.source
  { text := chunk.text
    source := chunk.source
    page_num := chunk.page_num
    chunk_index := chunk.chunk_index
    state := match st with
      | some s => if s = [] then ("unknown").toList else s
      | none => ("unknown").toList
    doc_type := dt
    chunk_id := generate_chunk_id chunk.source chunk.page_num chunk.chunk_index }

/-- Model of `tag_chunks` (`metadata_tagger.py` lines 182-212): annotate
every chunk in order. -/
def tag_chunks (chunks : List RawChunk)
    (state doc_type : Option (List Char)) : List TaggedChunk :=
  chunks.map (fun c => add_metadata_to_chunk c state doc_type)

example :
    add_metadata_to_chunk
      { text := ("What are generic drugs?...").toList,
        source := ("NC-FAQ-2026.pdf").toList, page_num := 5, chunk_index := 0 }
      none none =
    { text := ("What are generic drugs?...").toList,
      source := ("NC-FAQ-2026.pdf").toList, page_num := 5, chunk_index := 0,
      state := ("NC").toList, doc_type := ("faq").toList,
      chunk_id := ("NC-FAQ-2026-p5-c0").toList } := by decide

/-- A value stored in a chunk dictionary handed to the index builder:
a string, an integer, or an embedding vector (`float32` modelled as `ℚ`). -/
inductive Val where
  | str (v : List Char)
  | int (v : Nat)
  | vec (v : List ℚ)
deriving DecidableEq

/-- A chunk dictionary as consumed by `build_index_from_chunks`: an ordered
association list of field name / value pairs (Python dicts preserve
insertion order and have unique keys). -/
def EmbChunk : Type := List (List Char × Val)

instance : DecidableEq EmbChunk := by
  unfold EmbChunk
  infer_instance

/-- Dictionary lookup (`chunk[key]` / `key in chunk`). -/
def getVal (ch : EmbChunk) (key : List Char) : Option Val :=
  (ch.find? (fun p => decide (p.1 = key))).map (fun p => p.2)

/-- The `'embedding'` dictionary key. -/
def embKey : List Char := ("embedding").toList

/-- Model of a `faiss.IndexFlatL2`: its configured dimension and the stored
vectors in insertion order (`ntotal` is the number of stored vectors). -/
structure FaissIndex where
  d : Nat
  vecs : List (List ℚ)
deriving DecidableEq

/-- The `ntotal` attribute of a faiss index: the number of stored vectors. -/
def ntotal (index : FaissIndex) : Nat := index.vecs.length

/-- Squared Euclidean distance, the metric of `IndexFlatL2`. -/
def l2dist (q v : List ℚ) : ℚ :=
  ((q.zip v).map (fun p => (p.1 - p.2) * (p.1 - p.2))).sum

/-- Errors surfaced by the index-building path of `faiss_indexer.py`:
`ValueError('No chunks provided')`, `ValueError("Chunks must have
'embedding' field...")`, a `KeyError` from `chunk['embedding']` on a later
chunk, and the faiss dimension assertion in `index.add`. -/
inductive BuildErr where
  | noChunks
  | missingEmbeddingField
  | embeddingKeyError
  | dimensionMismatch
deriving DecidableEq

deriving instance DecidableEq for Except

/-- Exception-propagating map, the model of a Python list comprehension
whose body may raise. -/
def mapExcept (f : α → Except ε β) : List α → Except ε (List β)
  | [] => .ok []
  | x :: xs =>
    match f x with
    | .error e => .error e
    | .ok y => (mapExcept f xs).map (fun ys => y :: ys)

/-- The element access `chunk['embedding']` of the comprehension at
`faiss_indexer.py` line 121: a missing key raises `KeyError`. -/
def embFieldOf (ch : EmbChunk) : Except BuildErr Val :=
  match getVal ch embKey with
  | some v => Except.ok v
  | none => Except.error BuildErr.embeddingKeyError

/-- The shape requirement that `np.array` plus `index.add` impose on each
extracted embedding: it must be a vector of the configured dimension. -/
def checkDim (dimension : Nat) (v : Val) : Except BuildErr (List ℚ) :=
  match v with
  | Val.vec l =>
    if l.length = dimension then Except.ok l
    else Except.error BuildErr.dimensionMismatch
  | _ => Except.error BuildErr.dimensionMismatch

/-- Model of `build_index_from_chunks` (`faiss_indexer.py` lines 91-135)
with the default `flat` index type: reject an empty input and a first chunk
without `'embedding'`; extract all embeddings in order (a missing key on a
later chunk raises); `index.add` then requires every vector to have the
configured dimension; the metadata table keeps every field except
`'embedding'`, in the same order. -/
def build_index_from_chunks (chunks : List EmbChunk) (dimension : Nat) :
    Except BuildErr (FaissIndex × List EmbChunk) :=
  match chunks with
  | [] => .error .noChunks
  | c :: _ =>
    if (getVal c embKey).isNone then .error .missingEmbeddingField
    else
      match mapExcept embFieldOf chunks with
      | .error e => .error e
      | .ok vals =>
        match mapExcept (checkDim dimension) vals with
        | .error e => .error e
        | .ok embs =>
          .ok ({ d := dimension, vecs := embs },
            chunks.map (fun ch => ch.filter (fun p => decide (p.1 ≠ embKey))))

example :
    build_index_from_chunks
      [[(embKey, Val.vec [1, 2]), (("text").toList, Val.str (("hi").toList))],
       [(("text").toList, Val.str (("yo").toList)), (embKey, Val.vec [3, 4])]] 2 =
    Except.ok
      ({ d := 2, vecs := [[1, 2], [3, 4]] },
        [[(("text").toList, Val.str (("hi").toList))],
         [(("text").toList, Val.str (("yo").toList))]]) := by decide
example : build_index_from_chunks [] 2 = Except.error BuildErr.noChunks := by decide
example :
    build_index_from_chunks [[(embKey, Val.vec [1])]] 2 =
    Except.error BuildErr.dimensionMismatch := by decide

/-- Errors raised by `load_index` (`faiss_indexer.py` lines 209-219): a
`FileNotFoundError` for whichever artifact is missing. -/
inductive LoadErr where
  | indexFileNotFound
  | metadataFileNotFound
deriving DecidableEq

/-- Result of `load_index`: the loaded pair, plus whether the count
validation at `faiss_indexer.py` lines 227-228 printed its mismatch
warning (the function returns the pair either way). -/
structure LoadOutput (α : Type) where
  index : FaissIndex
  metadata : List α
  warned : Bool
deriving DecidableEq

/-- Model of `load_index` (`faiss_indexer.py` lines 187-230).  The file
system at the two given paths is abstracted as the optional contents of
the index artifact and of the metadata artifact.  A missing artifact
raises `FileNotFoundError`; otherwise the pair is returned, with the count
check producing only a warning. -/
def load_index (indexFile : Option FaissIndex) (metadataFile : Option (List α)) :
    Except LoadErr (LoadOutput α) :=
  match indexFile with
  | none => .error .indexFileNotFound
  | some index =>
    match metadataFile with
    | none => .error .metadataFileNotFound
    | some metadata =>
      .ok { index := index, metadata := metadata,
            warned := decide (ntotal index ≠ metadata.length) }

example :
    load_index (α := Nat) (some { d := 1, vecs := [[5]] }) none =
    Except.error LoadErr.metadataFileNotFound := by decide
example :
    load_index (some { d := 1, vecs := [[5]] }) (some [10]) =
    Except.ok { index := { d := 1, vecs := [[5]] }, metadata := [10],
                warned := false } := by decide

/-- Errors surfaced by `search_index` (`faiss_indexer.py` lines 233-284).
`configError` is the spec's `ConfigError` (taxonomy in spec section 7); the
source never raises it, it is listed so that statements can compare the
code's behaviour against it.  `faissNonPositiveK` models the faiss
assertion that rejects `index.search(q, k)` for `k <= 0`
(`FAISS_THROW_IF_NOT(k > 0)` in `IndexFlat::search`), and `indexError`
models a Python `IndexError` from `metadata[idx]`. -/
inductive SearchErr where
  | configError
  | faissNonPositiveK
  | indexError
deriving DecidableEq

/-- One ranked search result: the metadata record `metadata[idx].copy()`
with the `score` (raw L2 distance) and 0-based `rank` fields added
(`faiss_indexer.py` lines 279-281). -/
structure SearchResult (α : Type) where
  meta : α
  score : ℚ
  rank : Nat
deriving DecidableEq

/-- Model of the faiss `IndexFlatL2` k-nearest-neighbour kernel: score
every stored vector by L2 distance to the query, sort stably by distance
(ties keep insertion order) and keep the first `k`.  Entries are
`(vector position, distance)`. -/
def faissSearchPairs (vecs : List (List ℚ)) (q : List ℚ) (k : Nat) :
    List (Nat × ℚ) :=
  (((List.range vecs.length).map (fun i => (i, l2dist q (vecs.getD i [])))).mergeSort
    (fun a b => decide (a.2 ≤ b.2))).take k

/-- The raw `k` result slots returned by `index.search`: the found
neighbours (as non-negative positions), padded with the sentinel index
`-1` when the index holds fewer than `k` vectors.  The distance stored in
a sentinel slot is irrelevant (callers skip it); it is modelled as `0`. -/
def faissSearchSlots (vecs : List (List ℚ)) (q : List ℚ) (k : Nat) :
    List (Int × ℚ) :=
  let top := (faissSearchPairs vecs q k).map (fun p => ((p.1 : Int), p.2))
  top ++ List.replicate (k - top.length) (-1, 0)

/-- The result-collection loop of `search_index` (`faiss_indexer.py`
lines 274-282): walk the slots with their rank, skip sentinel `-1` slots,
and attach metadata, score and rank; `metadata[idx]` out of range raises. -/
def collectResults (metadata : List α) : Nat → List (Int × ℚ) →
    Except SearchErr (List (SearchResult α))
  | _, [] => .ok []
  | rank, (idx, dist) :: rest =>
    if idx = -1 then collectResults metadata (rank + 1) rest
    else
      match metadata.get? idx.toNat with
      | none => .error .indexError
      | some m =>
        (collectResults metadata (rank + 1) rest).map
          (fun rs => { meta := m, score := dist, rank := rank } :: rs)

/-- Model of `search_index` (`faiss_indexer.py` lines 233-284): no
parameter validation of its own; the `top_k` argument goes straight to
`index.search`, which rejects non-positive `k`; otherwise the slots are
converted to ranked, metadata-enriched results. -/
def search_index (index : FaissIndex) (metadata : List α) (q : List ℚ)
    (top_k : Int) : Except SearchErr (List (SearchResult α)) :=
  if top_k ≤ 0 then .error .faissNonPositiveK
  else collectResults metadata 0 (faissSearchSlots index.vecs q top_k.toNat)

theorem nilInfix (l : List α) : [] <:+: l := ⟨[], l, by simp⟩

theorem infixAppendRightOf {u v : List α} (w : List α) (h : u <:+: v) :
    u <:+: v ++ w := by
  obtain ⟨x, y, rfl⟩ := h
  exact ⟨x, y ++ w, by simp⟩

theorem infixAppendLeftOf {u v : List α} (w : List α) (h : u <:+: v) :
    u <:+: w ++ v := by
  obtain ⟨x, y, rfl⟩ := h
  exact ⟨w ++ x, y, by simp⟩

theorem infixConsOf {u v : List α} (c : α) (h : u <:+: v) : u <:+: c :: v :=
  infixAppendLeftOf [c] h

theorem reverseInfixOf {u v : List α} (h : u <:+: v) : u.reverse <:+: v.reverse := by
  obtain ⟨x, y, rfl⟩ := h
  exact ⟨y.reverse, x.reverse, by simp⟩

theorem headDropWhileFalse {p : α → Bool} {l : List α} {a : α}
    (h : (l.dropWhile p).head? = some a) : p a = false := by
  induction l with
  | nil => simp [List.dropWhile] at h
  | cons c rest ih =>
    by_cases hc : p c
    · rw [List.dropWhile_cons_of_pos hc] at h
      exact ih h
    · rw [List.dropWhile_cons_of_neg hc] at h
      simp at h
      subst h
      exact Bool.of_not_eq_true hc

theorem trimFrontKeeps {u v : List Char} (h : u <:+: v)
    (hhead : ∀ a, u.head? = some a → isSpace a = false) :
    u <:+: v.dropWhile isSpace := by
  obtain ⟨x, y, rfl⟩ := h
  induction x with
  | nil =>
    cases u with
    | nil => exact nilInfix _
    | cons a u' =>
      have ha : isSpace a = false := hhead a rfl
      simp only [List.nil_append, List.cons_append]
      rw [List.dropWhile_cons_of_neg (by simp [ha])]
      exact ⟨[], y, by simp⟩
  | cons c x' ih =>
    simp only [List.cons_append]
    by_cases hc : isSpace c
    · rw [List.dropWhile_cons_of_pos hc]
      simpa using ih
    · rw [List.dropWhile_cons_of_neg hc]
      exact infixConsOf c ⟨x', y, by simp⟩

theorem pyStripInfixSelf (l : List Char) : pyStrip l <:+: l := by
  unfold pyStrip
  have h1 : (l.dropWhile isSpace).reverse.dropWhile isSpace <:+:
      (l.dropWhile isSpace).reverse := (List.dropWhile_suffix isSpace).isInfix
  have h2 := reverseInfixOf h1
  rw [List.reverse_reverse] at h2
  exact h2.trans (List.dropWhile_suffix isSpace).isInfix

theorem pyStripRevHeadFalse {l : List Char} {a : Char}
    (h : (pyStrip l).reverse.head? = some a) : isSpace a = false := by
  unfold pyStrip at h
  rw [List.reverse_reverse] at h
  exact headDropWhileFalse h

theorem pyStripHeadFalse {l : List Char} {a : Char}
    (h : (pyStrip l).head? = some a) : isSpace a = false := by
  unfold pyStrip at h
  set A := l.dropWhile isSpace with hA
  rw [List.head?_reverse] at h
  obtain ⟨w, hw⟩ :=
    (List.dropWhile_suffix isSpace : A.reverse.dropWhile isSpace <:+ A.reverse)
  have hlast : (A.reverse.dropWhile isSpace).getLast? = some a := h
  have : A.reverse.getLast? = some a := by
    rw [← hw, List.getLast?_append, hlast]
    rfl
  rw [List.getLast?_reverse] at this
  exact headDropWhileFalse (by rw [hA] at this; exact this)

theorem stripInfixStrip {s v : List Char} (h : pyStrip s <:+: v) :
    pyStrip s <:+: pyStrip v := by
  have step1 : pyStrip s <:+: v.dropWhile isSpace :=
    trimFrontKeeps h (fun b hb => pyStripHeadFalse hb)
  have step2 : (pyStrip s).reverse <:+: (v.dropWhile isSpace).reverse :=
    reverseInfixOf step1
  have step3 : (pyStrip s).reverse <:+: (v.dropWhile isSpace).reverse.dropWhile isSpace :=
    trimFrontKeeps step2 (fun b hb => pyStripRevHeadFalse hb)
  have step4 := reverseInfixOf step3
  rw [List.reverse_reverse] at step4
  exact step4

theorem allSpacePyStripNil {l : List Char} (h : ∀ c ∈ l, isSpace c = true) :
    pyStrip l = [] := by
  have hd : l.dropWhile isSpace = [] := by
    rw [List.dropWhile_eq_nil_iff]
    exact fun c hc => h c hc
  unfold pyStrip
  rw [hd]
  simp

theorem pyStripNeNilAllSpace {l : List Char} (hall : ∀ c ∈ l, isSpace c = true) :
    (pyStrip l ≠ []) = False := by
  simp [allSpacePyStripNil hall]

theorem infixAllSpace {u v : List Char} (h : u <:+: v)
    (hall : ∀ c ∈ v, isSpace c = true) : ∀ c ∈ u, isSpace c = true :=
  fun c hc => hall c (h.subset hc)

theorem sentenceAuxInfix :
    ∀ (fuel : Nat) (l acc s : List Char),
      s ∈ splitSentencesAux fuel l acc → s <:+: acc.reverse ++ l := by
  intro fuel
  induction fuel with
  | zero =>
    intro l acc s hs
    cases l with
    | nil =>
      simp [splitSentencesAux] at hs
      subst hs
      exact ⟨[], [], by simp⟩
    | cons c rest =>
      simp [splitSentencesAux] at hs
      subst hs
      exact ⟨[], [], by simp⟩
  | succ fuel ih =>
    intro l acc s hs
    cases l with
    | nil =>
      simp [splitSentencesAux] at hs
      subst hs
      exact ⟨[], [], by simp⟩
    | cons c rest =>
      rw [splitSentencesAux] at hs
      by_cases hb : (isSentencePunct c && headIsSpace rest) = true
      · rw [if_pos hb] at hs
        rcases List.mem_cons.mp hs with h1 | h2
        · subst h1
          refine ⟨[], rest.dropWhile isSpace, ?_⟩
          simp [List.append_assoc, List.takeWhile_append_dropWhile]
        · have := ih (rest.dropWhile isSpace) [] s h2
          simp only [List.reverse_nil, List.nil_append] at this
          have hrest : s <:+: rest :=
            this.trans (List.dropWhile_suffix isSpace).isInfix
          exact infixAppendLeftOf acc.reverse (infixConsOf c hrest)
      · rw [if_neg hb] at hs
        have := ih rest (c :: acc) s hs
        simpa [List.append_assoc] using this

theorem sentenceInfixText {text s : List Char} (hs : s ∈ splitSentences text) :
    s <:+: text := by
  have hmem : s ∈ splitSentencesAux text.length text [] :=
    (List.mem_filter.mp hs).1
  have := sentenceAuxInfix text.length text [] s hmem
  simpa using this

theorem sentenceStripNeNil {text s : List Char} (hs : s ∈ splitSentences text) :
    pyStrip s ≠ [] := by
  have := (List.mem_filter.mp hs).2
  simpa using this

/-- Invariant of the sentence-packing fold: the (stripped) sentence `s` is
already contained in an emitted chunk, or still contained in the running
`current_chunk`. -/
def smartInv (s : List Char) (st : List (List Char) × List Char) : Prop :=
  (∃ c ∈ st.1, pyStrip s <:+: c) ∨ pyStrip s <:+: st.2

theorem smartStepPreserves (k o : Nat) (s sentence : List Char)
    (st : List (List Char) × List Char) (h : smartInv s st) :
    smartInv s (smartStep k o st sentence) := by
  unfold smartInv smartStep
  rcases h with ⟨c, hc, hic⟩ | hcur
  · by_cases h1 : k < st.2.length + sentence.length
    · rw [if_pos h1]
      by_cases h2 : pyStrip st.2 ≠ []
      · rw [if_pos h2]
        exact Or.inl ⟨c, List.mem_append_left _ hc, hic⟩
      · rw [if_neg h2]
        exact Or.inl ⟨c, hc, hic⟩
    · rw [if_neg h1]
      exact Or.inl ⟨c, hc, hic⟩
  · by_cases h1 : k < st.2.length + sentence.length
    · rw [if_pos h1]
      by_cases h2 : pyStrip st.2 ≠ []
      · rw [if_pos h2]
        refine Or.inl ⟨pyStrip st.2, List.mem_append_right _ (List.mem_singleton.mpr rfl), ?_⟩
        exact stripInfixStrip hcur
      · rw [if_neg h2]
        push_neg at h2
        have : pyStrip s <:+: pyStrip st.2 := stripInfixStrip hcur
        rw [h2] at this
        have : pyStrip s = [] := List.eq_nil_of_infix_nil this
        rw [this]
        exact Or.inr (nilInfix _)
    · rw [if_neg h1]
      exact Or.inr (infixAppendRightOf sentence hcur)

theorem smartStepAdds (k o : Nat) (sentence : List Char)
    (st : List (List Char) × List Char) :
    smartInv sentence (smartStep k o st sentence) := by
  unfold smartInv smartStep
  have hself : pyStrip sentence <:+: sentence := pyStripInfixSelf sentence
  by_cases h1 : k < st.2.length + sentence.length
  · rw [if_pos h1]
    by_cases h2 : pyStrip st.2 ≠ []
    · rw [if_pos h2]
      by_cases h3 : 0 < o ∧ o < st.2.length
      · rw [if_pos h3]
        exact Or.inr (infixAppendLeftOf _ hself)
      · rw [if_neg h3]
        exact Or.inr hself
    · rw [if_neg h2]
      exact Or.inr hself
  · rw [if_neg h1]
    exact Or.inr (infixAppendLeftOf _ hself)

theorem smartFoldInv (k o : Nat) (s : List Char) :
    ∀ (sentences : List (List Char)) (st : List (List Char) × List Char),
      smartInv s st ∨ s ∈ sentences →
      smartInv s (sentences.foldl (smartStep k o) st) := by
  intro sentences
  induction sentences with
  | nil =>
    intro st h
    rcases h with h | h
    · simpa using h
    · simp at h
  | cons x xs ih =>
    intro st h
    rw [List.foldl_cons]
    rcases h with h | h
    · exact ih _ (Or.inl (smartStepPreserves k o s x st h))
    · rcases List.mem_cons.mp h with rfl | hxs
      · exact ih _ (Or.inl (smartStepAdds k o s st))
      · exact ih _ (Or.inr hxs)

/-- C8: in smart mode, a sentence longer than `chunk_size` is never split
mid-sentence: its stripped text appears contiguously inside a single chunk
of `chunk_text_smart`'s output (the chunk that emitted it, which may carry
the overlap seed in front and is therefore oversized). -/
theorem smart_long_sentence_not_split
    (text : List Char) (chunk_size overlap : Nat) (s : List Char)
    (hs : s ∈ splitSentences text) (hlong : chunk_size < s.length) :
    ∃ c ∈ chunk_text_smart text chunk_size overlap, pyStrip s <:+: c := by
  have hinf := sentenceInfixText hs
  have hlen : s.length ≤ text.length := hinf.length_le
  simp only [chunk_text_smart]
  rw [if_neg (by omega : ¬ text.length = 0)]
  rw [if_neg (by omega : ¬ text.length ≤ chunk_size)]
  set st := (splitSentences text).foldl (smartStep chunk_size overlap) ([], []) with hst
  have hinv : smartInv s st := smartFoldInv chunk_size overlap s _ _ (Or.inr hs)
  have hne := sentenceStripNeNil hs
  rcases hinv with ⟨c, hc, hic⟩ | hcur
  · by_cases hflush : pyStrip st.2 ≠ []
    · rw [if_pos hflush]
      exact ⟨c, List.mem_append_left _ hc, hic⟩
    · rw [if_neg hflush]
      exact ⟨c, hc, hic⟩
  · have h2 : pyStrip s <:+: pyStrip st.2 := stripInfixStrip hcur
    have hne2 : pyStrip st.2 ≠ [] := by
      intro h
      rw [h] at h2
      exact hne (List.eq_nil_of_infix_nil h2)
    rw [if_pos hne2]
    exact ⟨pyStrip st.2, List.mem_append_right _ (List.mem_singleton.mpr rfl), h2⟩

/-- Witness for C8 at a concrete input: the 10-character sentence
`abcdefgh. ` exceeds `chunk_size = 5` and lands whole in one output chunk. -/
theorem smart_long_sentence_not_split_witness :
    (("abcdefgh. ").toList) ∈ splitSentences (("abcdefgh. xy").toList) ∧
    5 < (("abcdefgh. ").toList).length ∧
    ∃ c ∈ chunk_text_smart (("abcdefgh. xy").toList) 5 2,
      pyStrip (("abcdefgh. ").toList) <:+: c :=
  ⟨by decide, by decide,
    smart_long_sentence_not_split (("abcdefgh. xy").toList) 5 2
      (("abcdefgh. ").toList) (by decide) (by decide)⟩

/-- Counterexample to C6 as stated: the one-character whitespace-only text
`' '` is not empty, yet both chunkers return `[' ']`, not the empty
sequence, because the `len(text) <= chunk_size` early return fires before
any whitespace check. -/
theorem whitespace_short_counterexample :
    (∀ c ∈ [' '], isSpace c = true) ∧
    chunk_text [' '] 500 50 = [[' ']] ∧ chunk_text [' '] 500 50 ≠ [] ∧
    chunk_text_smart [' '] 500 50 = [[' ']] ∧ chunk_text_smart [' '] 500 50 ≠ [] := by
  decide

theorem simpleWindowSubset (text : List Char) (k s : Nat) :
    ∀ c ∈ (text.drop s).take k, c ∈ text :=
  fun c hc => List.drop_subset s text (List.take_subset k _ hc)

/-- C6 amended: for whitespace-only (or empty) text, both chunkers return
the empty sequence when the text is empty or longer than `chunk_size`
(every window / sentence is dropped as whitespace), but a whitespace-only
text of length at most `chunk_size` is returned unchanged as a single
chunk by the early return. -/
theorem whitespace_text_chunk_behavior (text : List Char) (k o : Nat)
    (hws : ∀ c ∈ text, isSpace c = true) (hk : 0 < k) :
    chunk_text text k o = (if text.length = 0 ∨ k < text.length then [] else [text]) ∧
    chunk_text_smart text k o =
      (if text.length = 0 ∨ k < text.length then [] else [text]) := by
  by_cases h0 : text.length = 0
  · have : text = [] := List.length_eq_zero.mp h0
    subst this
    constructor <;> simp [chunk_text, chunk_text_smart]
  · by_cases h1 : text.length ≤ k
    · rw [if_neg (by omega)]
      constructor
      · rw [chunk_text, if_neg h0, if_pos h1]
      · rw [chunk_text_smart, if_neg h0, if_pos h1]
    · rw [if_pos (by omega)]
      constructor
      · rw [chunk_text, if_neg h0, if_neg h1]
        rw [List.filter_eq_nil_iff]
        intro w hw
        simp only [simpleWindows, List.mem_map] at hw
        obtain ⟨s, _, rfl⟩ := hw
        have hall : ∀ c ∈ (text.drop s).take k, isSpace c = true :=
          fun c hc => hws c (simpleWindowSubset text k s c hc)
        simp [allSpacePyStripNil hall]
      · rw [chunk_text_smart, if_neg h0, if_neg h1]
        have hsent : splitSentences text = [] := by
          rw [splitSentences, List.filter_eq_nil_iff]
          intro s hsmem
          have hinf : s <:+: text := by
            have := sentenceAuxInfix text.length text [] s hsmem
            simpa using this
          have hall : ∀ c ∈ s, isSpace c = true := infixAllSpace hinf hws
          simp [allSpacePyStripNil hall]
        rw [hsent]
        simp [pyStrip]

/-- Witness for the amended C6 at a concrete input: the two-space text with
`chunk_size = 1` yields the empty sequence in both modes. -/
theorem whitespace_text_chunk_behavior_witness :
    (∀ c ∈ [' ', ' '], isSpace c = true) ∧ 0 < 1 ∧
    (chunk_text [' ', ' '] 1 0 =
        (if ([' ', ' '] : List Char).length = 0 ∨ 1 < ([' ', ' '] : List Char).length
          then [] else [[' ', ' ']]) ∧
      chunk_text_smart [' ', ' '] 1 0 =
        (if ([' ', ' '] : List Char).length = 0 ∨ 1 < ([' ', ' '] : List Char).length
          then [] else [[' ', ' ']])) :=
  ⟨by decide, by decide, whitespace_text_chunk_behavior [' ', ' '] 1 0 (by decide) (by decide)⟩

theorem chunkStartsZero (len a s : Nat) : chunkStarts len a 0 s = [] := rfl

theorem chunkStartsSucc (len a fuel s : Nat) :
    chunkStarts len a (fuel + 1) s =
      if s < len then s :: chunkStarts len a fuel (s + a) else [] := rfl

theorem chunkStartsGetQ (len a : Nat) :
    ∀ (fuel s i x : Nat), (chunkStarts len a fuel s).get? i = some x →
      x = s + i * a ∧ x < len := by
  intro fuel
  induction fuel with
  | zero =>
    intro s i x hx
    simp [chunkStartsZero] at hx
  | succ fuel ih =>
    intro s i x hx
    rw [chunkStartsSucc] at hx
    by_cases hs : s < len
    · rw [if_pos hs] at hx
      cases i with
      | zero =>
        simp at hx
        omega
      | succ i =>
        rw [List.get?_cons_succ] at hx
        have := ih (s + a) i x hx
        rw [Nat.succ_mul]
        omega
    · rw [if_neg hs] at hx
      simp at hx

/-- Counterexample to C7 as stated: with `chunk_size = 2, overlap = 1` on
the text `a \tb`, the all-whitespace middle window ` \t` is dropped, so the
chunks `a ` and `\tb` are adjacent in the output and both full-length, yet
the last `overlap` characters of the first differ from the first `overlap`
characters of the second (`' '` vs `'\t'`). -/
theorem adjacent_chunks_overlap_counterexample :
    chunk_text ['a', ' ', '\t', 'b'] 2 1 = [['a', ' '], ['\t', 'b'], ['b']] ∧
    (['a', ' '] : List Char).length = 2 ∧ (['\t', 'b'] : List Char).length = 2 ∧
    lastN 1 ['a', ' '] ≠ (['\t', 'b'] : List Char).take 1 := by
  decide

/-- C7 amended: the overlap equation holds between chunks produced at
consecutive window positions of the scan (equivalently, between adjacent
output chunks whenever no whitespace-only window was dropped between
them); a dropped window can separate output-adjacent chunks by two window
steps, where the equation can fail. -/
theorem consecutive_windows_share_overlap (text : List Char) (k o : Nat)
    (ho : o < k) (i : Nat)
    (h1 : i < (simpleWindows text k o).length)
    (h2 : i + 1 < (simpleWindows text k o).length)
    (hw1 : ((simpleWindows text k o).get ⟨i, h1⟩).length = k)
    (hw2 : ((simpleWindows text k o).get ⟨i + 1, h2⟩).length = k) :
    lastN o ((simpleWindows text k o).get ⟨i, h1⟩) =
      ((simpleWindows text k o).get ⟨i + 1, h2⟩).take o := by
  have ha : advance k o = k - o := by
    rw [advance, if_neg (by omega)]
  have hs1 : i < (chunkStarts text.length (advance k o) text.length 0).length := by
    simpa [simpleWindows] using h1
  have hs2 : i + 1 < (chunkStarts text.length (advance k o) text.length 0).length := by
    simpa [simpleWindows] using h2
  obtain ⟨hv1, hb1⟩ := chunkStartsGetQ text.length (advance k o) text.length 0 i
    ((chunkStarts text.length (advance k o) text.length 0).get ⟨i, hs1⟩)
    (List.get?_eq_get hs1)
  obtain ⟨hv2, hb2⟩ := chunkStartsGetQ text.length (advance k o) text.length 0 (i + 1)
    ((chunkStarts text.length (advance k o) text.length 0).get ⟨i + 1, hs2⟩)
    (List.get?_eq_get hs2)
  rw [List.get_eq_getElem] at hv1 hv2
  have hwin1 : (simpleWindows text k o).get ⟨i, h1⟩ =
      (text.drop (i * (k - o))).take k := by
    simp only [simpleWindows, List.get_eq_getElem, List.getElem_map]
    rw [hv1, ha]
    simp
  have hwin2 : (simpleWindows text k o).get ⟨i + 1, h2⟩ =
      (text.drop ((i + 1) * (k - o))).take k := by
    simp only [simpleWindows, List.get_eq_getElem, List.getElem_map]
    rw [hv2, ha]
    simp
  rw [hwin1, hwin2]
  rw [hwin1] at hw1
  have hlen : i * (k - o) + k ≤ text.length := by
    rw [List.length_take, List.length_drop] at hw1
    omega
  rw [lastN, hw1, List.drop_take, List.drop_drop, List.take_take]
  have e1 : k - (k - o) = o := by omega
  have e2 : min o k = o := by omega
  have e3 : i * (k - o) + (k - o) = (i + 1) * (k - o) := by
    rw [Nat.succ_mul]
  rw [e1, e2, e3]

/-- Witness for the amended C7 at a concrete input: the two consecutive
full windows `abc` and `cde` of `abcde` under `chunk_size = 3, overlap = 1`
share the character `c`. -/
theorem consecutive_windows_share_overlap_witness :
    1 < 3 ∧
    ∃ (h1 : 0 < (simpleWindows ['a', 'b', 'c', 'd', 'e'] 3 1).length)
      (h2 : 1 < (simpleWindows ['a', 'b', 'c', 'd', 'e'] 3 1).length),
      ((simpleWindows ['a', 'b', 'c', 'd', 'e'] 3 1).get ⟨0, h1⟩).length = 3 ∧
      ((simpleWindows ['a', 'b', 'c', 'd', 'e'] 3 1).get ⟨1, h2⟩).length = 3 ∧
      lastN 1 ((simpleWindows ['a', 'b', 'c', 'd', 'e'] 3 1).get ⟨0, h1⟩) =
        ((simpleWindows ['a', 'b', 'c', 'd', 'e'] 3 1).get ⟨1, h2⟩).take 1 :=
  ⟨by decide, by decide, by decide, by decide, by decide,
    consecutive_windows_share_overlap ['a', 'b', 'c', 'd', 'e'] 3 1 (by decide) 0
      (by decide) (by decide) (by decide) (by decide)⟩

theorem chunkStartsStable (len a : Nat) (hpos : 0 < a) :
    ∀ (f1 f2 s : Nat), len - s ≤ f1 → len - s ≤ f2 →
      chunkStarts len a f1 s = chunkStarts len a f2 s := by
  intro f1
  induction f1 with
  | zero =>
    intro f2 s h1 h2
    have hs : ¬ s < len := by omega
    cases f2 with
    | zero => rfl
    | succ f2 => rw [chunkStartsZero, chunkStartsSucc, if_neg hs]
  | succ f1 ih =>
    intro f2 s h1 h2
    cases f2 with
    | zero =>
      have hs : ¬ s < len := by omega
      rw [chunkStartsZero, chunkStartsSucc, if_neg hs]
    | succ f2 =>
      rw [chunkStartsSucc, chunkStartsSucc]
      by_cases hs : s < len
      · rw [if_pos hs, if_pos hs]
        rw [ih f2 (s + a) (by omega) (by omega)]
      · rw [if_neg hs, if_neg hs]

/-- C9: for `chunk_size > 0` the simple chunker's loop terminates: the
window start strictly increases by `advance chunk_size overlap ≥ 1` each
iteration (also when `overlap ≥ chunk_size`, where the advance falls back
to a full window step), so the scan is insensitive to any fuel of at least
`text.length` and yields the finite window list of `chunk_text`. -/
theorem chunk_text_scan_terminates (text : List Char) (k o : Nat) (hk : 0 < k) :
    0 < advance k o ∧
    ∀ fuel, text.length ≤ fuel →
      (chunkStarts text.length (advance k o) fuel 0).map
        (fun s => (text.drop s).take k) = simpleWindows text k o := by
  have hpos : 0 < advance k o := by
    rw [advance]
    by_cases h : o ≥ k
    · rw [if_pos h]
      exact hk
    · rw [if_neg h]
      omega
  refine ⟨hpos, fun fuel hf => ?_⟩
  rw [simpleWindows]
  rw [chunkStartsStable text.length (advance k o) hpos fuel text.length 0
    (by omega) (by omega)]

/-- Witness for C9 at a concrete input (`overlap ≥ chunk_size`, the
fallback-advance case) with an oversized fuel. -/
theorem chunk_text_scan_terminates_witness :
    0 < advance 2 5 ∧
    (chunkStarts (['a', 'b', 'c'] : List Char).length (advance 2 5) 9 0).map
      (fun s => ((['a', 'b', 'c'] : List Char).drop s).take 2) =
      simpleWindows ['a', 'b', 'c'] 2 5 :=
  ⟨(chunk_text_scan_terminates ['a', 'b', 'c'] 2 5 (by decide)).1,
    (chunk_text_scan_terminates ['a', 'b', 'c'] 2 5 (by decide)).2 9 (by decide)⟩

/-- C5, failing input for corpus-wide uniqueness: the sources `a.pdf` and
`a` are distinct, but after the `.pdf`-stripping/truncation/sanitization
both produce the prefix `a`, so the distinct triples `("a.pdf", 1, 0)` and
`("a", 1, 0)` collide on the very same chunk id `a-p1-c0`.  (The same-triple
determinism half of the claim holds trivially: the id is a pure function of
the triple.) -/
theorem chunk_id_collision :
    generate_chunk_id (("a.pdf").toList) 1 0 = (("a-p1-c0").toList) ∧
    generate_chunk_id (("a").toList) 1 0 = (("a-p1-c0").toList) ∧
    ((("a.pdf").toList, 1, 0) : List Char × Nat × Nat) ≠ ((("a").toList), 1, 0) := by
  decide

/-- C10: `tag_chunks` returns one output record per input record, in order;
each output retains the input's `text`, `source`, `page_num` and
`chunk_index` unchanged, and is exactly the input plus the three fields
`state`, `doc_type`, `chunk_id` filled by `add_metadata_to_chunk`, with
`chunk_id` computed from the record's own `(source, page_num, chunk_index)`. -/
theorem tag_chunks_frame (chunks : List RawChunk)
    (state doc_type : Option (List Char)) :
    (tag_chunks chunks state doc_type).length = chunks.length ∧
    ∀ (i : Nat) (h : i < chunks.length)
      (h2 : i < (tag_chunks chunks state doc_type).length),
      ((tag_chunks chunks state doc_type).get ⟨i, h2⟩).text =
          (chunks.get ⟨i, h⟩).text ∧
      ((tag_chunks chunks state doc_type).get ⟨i, h2⟩).source =
          (chunks.get ⟨i, h⟩).source ∧
      ((tag_chunks chunks state doc_type).get ⟨i, h2⟩).page_num =
          (chunks.get ⟨i, h⟩).page_num ∧
      ((tag_chunks chunks state doc_type).get ⟨i, h2⟩).chunk_index =
          (chunks.get ⟨i, h⟩).chunk_index ∧
      ((tag_chunks chunks state doc_type).get ⟨i, h2⟩).chunk_id =
          generate_chunk_id (chunks.get ⟨i, h⟩).source
            (chunks.get ⟨i, h⟩).page_num (chunks.get ⟨i, h⟩).chunk_index ∧
      (tag_chunks chunks state doc_type).get ⟨i, h2⟩ =
          add_metadata_to_chunk (chunks.get ⟨i, h⟩) state doc_type := by
  refine ⟨by simp [tag_chunks], ?_⟩
  intro i h h2
  have hget : (tag_chunks chunks state doc_type).get ⟨i, h2⟩ =
      add_metadata_to_chunk (chunks.get ⟨i, h⟩) state doc_type := by
    simp [tag_chunks, List.get_eq_getElem, List.getElem_map]
  rw [hget]
  refine ⟨rfl, rfl, rfl, rfl, rfl, rfl⟩

/-- Witness for C10 at a concrete input record. -/
theorem tag_chunks_frame_witness :
    (tag_chunks
        [{ text := ("Metformin is covered...").toList,
           source := ("NC-formulary.pdf").toList, page_num := 23, chunk_index := 2 }]
        none none).length = 1 ∧
    ((tag_chunks
        [{ text := ("Metformin is covered...").toList,
           source := ("NC-formulary.pdf").toList, page_num := 23, chunk_index := 2 }]
        none none).get ⟨0, by decide⟩).text = ("Metformin is covered...").toList ∧
    ((tag_chunks
        [{ text := ("Metformin is covered...").toList,
           source := ("NC-formulary.pdf").toList, page_num := 23, chunk_index := 2 }]
        none none).get ⟨0, by decide⟩).chunk_id =
      generate_chunk_id (("NC-formulary.pdf").toList) 23 2 := by
  have h := tag_chunks_frame
    [{ text := ("Metformin is covered...").toList,
       source := ("NC-formulary.pdf").toList, page_num := 23, chunk_index := 2 }]
    none none
  have h0 := h.2 0 (by decide) (by decide)
  exact ⟨h.1, h0.1, h0.2.2.2.2.1⟩

/-- Counterexample to C2 as stated: on a pair whose counts disagree (one
vector, two metadata records) `load_index` does not fail — it returns the
mismatched pair normally, the count check only producing the printed
warning (`warned = true`). -/
theorem load_index_mismatch_counterexample :
    ntotal { d := 1, vecs := [[(1 : ℚ)]] } ≠ ([10, 20] : List Nat).length ∧
    load_index (some { d := 1, vecs := [[(1 : ℚ)]] }) (some ([10, 20] : List Nat)) =
      Except.ok { index := { d := 1, vecs := [[(1 : ℚ)]] }, metadata := [10, 20],
                  warned := true } := by
  decide

/-- C2 amended: when both artifacts load, `load_index` always succeeds and
returns the pair unchanged, raising the printed warning exactly when
`Index.count != len(MetadataTable)`; it fails only for a missing artifact
(`FileNotFoundError`). -/
theorem load_index_warns_and_returns (index : FaissIndex) (metadata : List α) :
    (∃ out, load_index (some index) (some metadata) = Except.ok out ∧
      out.index = index ∧ out.metadata = metadata ∧
      (out.warned = true ↔ ntotal index ≠ metadata.length)) ∧
    load_index (some index) (none : Option (List α)) =
      Except.error LoadErr.metadataFileNotFound ∧
    load_index (none : Option FaissIndex) (some metadata) =
      Except.error LoadErr.indexFileNotFound := by
  refine ⟨⟨_, rfl, rfl, rfl, ?_⟩, rfl, rfl⟩
  simp [load_index]

/-- Counterexample to C4 as stated: `search_index` called with `topK = 0`
fails with the faiss invalid-`k` error (the source performs no `topK`
validation of its own), not with a `ConfigError`. -/
theorem search_topk_counterexample :
    search_index { d := 1, vecs := [[(0 : ℚ)]] } ([7] : List Nat) [(0 : ℚ)] 0 =
      Except.error SearchErr.faissNonPositiveK ∧
    search_index { d := 1, vecs := [[(0 : ℚ)]] } ([7] : List Nat) [(0 : ℚ)] 0 ≠
      Except.error SearchErr.configError := by
  decide

/-- C4 amended: every call with `topK ≤ 0` fails, but through the faiss
`k > 0` assertion that the unvalidated `topK` runs into, not through a
`ConfigError` raised by the retriever. -/
theorem search_nonpositive_topk (index : FaissIndex) (metadata : List α)
    (q : List ℚ) (top_k : Int) (hk : top_k ≤ 0) :
    search_index index metadata q top_k = Except.error SearchErr.faissNonPositiveK ∧
    search_index index metadata q top_k ≠ Except.error SearchErr.configError := by
  rw [search_index, if_pos hk]
  refine ⟨rfl, ?_⟩
  intro h
  have := Except.error.inj h
  exact absurd this (by decide)

/-- Witness for the amended C4 at the concrete call `topK = -2`. -/
theorem search_nonpositive_topk_witness :
    ((-2 : Int) ≤ 0) ∧
    (search_index { d := 1, vecs := [[(0 : ℚ)]] } ([7] : List Nat) [(0 : ℚ)] (-2) =
        Except.error SearchErr.faissNonPositiveK ∧
      search_index { d := 1, vecs := [[(0 : ℚ)]] } ([7] : List Nat) [(0 : ℚ)] (-2) ≠
        Except.error SearchErr.configError) :=
  ⟨by decide,
    search_nonpositive_topk { d := 1, vecs := [[(0 : ℚ)]] } ([7] : List Nat)
      [(0 : ℚ)] (-2) (by decide)⟩

theorem mapExceptForall {α β ε : Type} {f : α → Except ε β} :
    ∀ (l : List α), (∀ x ∈ l, ∃ y, f x = Except.ok y) →
      ∃ l', mapExcept f l = Except.ok l' ∧ l'.length = l.length ∧
        ∀ (i : Nat) (h : i < l.length) (h2 : i < l'.length),
          f (l.get ⟨i, h⟩) = Except.ok (l'.get ⟨i, h2⟩) := by
  intro l
  induction l with
  | nil =>
    intro _
    exact ⟨[], rfl, rfl, fun i h => by simp at h⟩
  | cons x xs ih =>
    intro hall
    obtain ⟨y, hy⟩ := hall x (List.mem_cons_self x xs)
    obtain ⟨l', hl', hlen, hidx⟩ := ih (fun z hz => hall z (List.mem_cons_of_mem x hz))
    refine ⟨y :: l', ?_, by simpa using hlen, ?_⟩
    · rw [mapExcept, hy, hl']
      rfl
    · intro i h h2
      cases i with
      | zero => simpa using hy
      | succ i =>
        have h' : i < xs.length := by simpa using h
        have h2' : i < l'.length := by simpa using h2
        simpa using hidx i h' h2'

/-- C1: for a non-empty input of embedded chunks (every chunk has an
`'embedding'` vector of the configured dimension), the builder succeeds and
`Index.count = len(MetadataTable) = len(input)`; the index's `i`-th vector
is exactly the `i`-th input chunk's `'embedding'` value (insertion in input
order), and the `i`-th metadata record is the `i`-th input chunk with
exactly the `'embedding'` field removed. -/
theorem build_index_contract (chunks : List EmbChunk) (dimension : Nat)
    (hne : chunks ≠ [])
    (hemb : ∀ ch ∈ chunks, ∃ v, getVal ch embKey = some (Val.vec v) ∧
      v.length = dimension) :
    ∃ index metadata,
      build_index_from_chunks chunks dimension = Except.ok (index, metadata) ∧
      ntotal index = metadata.length ∧ metadata.length = chunks.length ∧
      (∀ (i : Nat) (h : i < chunks.length) (h2 : i < index.vecs.length),
        getVal (chunks.get ⟨i, h⟩) embKey =
          some (Val.vec (index.vecs.get ⟨i, h2⟩))) ∧
      (∀ (i : Nat) (h : i < chunks.length) (h3 : i < metadata.length),
        metadata.get ⟨i, h3⟩ =
          (chunks.get ⟨i, h⟩).filter (fun p => decide (p.1 ≠ embKey))) := by
  have h1 : ∀ ch ∈ chunks, ∃ y, embFieldOf ch = Except.ok y := by
    intro ch hch
    obtain ⟨v, hv, _⟩ := hemb ch hch
    exact ⟨Val.vec v, by simp [embFieldOf, hv]⟩
  obtain ⟨vals, hvals, hvlen, hvidx⟩ := mapExceptForall chunks h1
  have hvalsEq : ∀ (i : Nat) (h : i < chunks.length) (h2 : i < vals.length),
      getVal (chunks.get ⟨i, h⟩) embKey = some (vals.get ⟨i, h2⟩) := by
    intro i h h2
    have hfi := hvidx i h h2
    rw [embFieldOf] at hfi
    rcases hg : getVal (chunks.get ⟨i, h⟩) embKey with _ | v
    · rw [hg] at hfi
      exact absurd hfi (by simp)
    · rw [hg] at hfi
      simp at hfi
      rw [hfi]
      simp [List.get_eq_getElem]
  have h2 : ∀ v ∈ vals, ∃ y, checkDim dimension v = Except.ok y := by
    intro v hv
    obtain ⟨n, hn⟩ := List.mem_iff_get.mp hv
    have hnc : n.1 < chunks.length := by omega
    have hge := hvalsEq n.1 hnc n.2
    obtain ⟨w, hw, hwlen⟩ := hemb (chunks.get ⟨n.1, hnc⟩) (List.get_mem _ _ _)
    rw [hw] at hge
    have : vals.get ⟨n.1, n.2⟩ = Val.vec w := by
      have := Option.some.inj hge
      rw [this]
    have hveq : v = Val.vec w := by
      rw [← hn, ← this]
    exact ⟨w, by simp [checkDim, hveq, hwlen]⟩
  obtain ⟨embs, hembs, helen, heidx⟩ := mapExceptForall vals h2
  have hembsEq : ∀ (i : Nat) (h : i < chunks.length) (h2 : i < embs.length),
      getVal (chunks.get ⟨i, h⟩) embKey = some (Val.vec (embs.get ⟨i, h2⟩)) := by
    intro i h h2
    have hv2 : i < vals.length := by omega
    have hci := heidx i hv2 h2
    have hge := hvalsEq i h hv2
    rcases hvi : vals.get ⟨i, hv2⟩ with w | w | w
    · rw [hvi] at hci
      exact absurd hci (by simp [checkDim])
    · rw [hvi] at hci
      exact absurd hci (by simp [checkDim])
    · rw [hvi] at hci
      rw [checkDim] at hci
      by_cases hd : w.length = dimension
      · rw [if_pos hd] at hci
        have hwe : w = embs.get ⟨i, h2⟩ := Except.ok.inj hci
        rw [hvi, hwe] at hge
        exact hge
      · rw [if_neg hd] at hci
        exact absurd hci (by simp)
  cases chunks with
  | nil => exact absurd rfl hne
  | cons c rest =>
    obtain ⟨v0, hv0, _⟩ := hemb c (List.mem_cons_self c rest)
    refine ⟨{ d := dimension, vecs := embs },
      (c :: rest).map (fun ch => ch.filter (fun p => decide (p.1 ≠ embKey))),
      ?_, ?_, ?_, ?_, ?_⟩
    · simp [build_index_from_chunks, hv0, hvals, hembs]
    · simp only [ntotal, List.length_map]
      simp only [List.length_cons] at hvlen ⊢
      omega
    · simp
    · intro i h h2
      exact hembsEq i h h2
    · intro i h h3
      simp only [List.get_eq_getElem, List.getElem_map]

/-- Concrete two-chunk input used by the C1 witness. -/
def exChunks : List EmbChunk :=
  [[(embKey, Val.vec [1]), (("text").toList, Val.str (("hi").toList))],
   [(("text").toList, Val.str (("yo").toList)), (embKey, Val.vec [2])]]

/-- Witness for C1 at a concrete two-chunk input of dimension 1. -/
theorem build_index_contract_witness :
    exChunks ≠ [] ∧
    (∀ ch ∈ exChunks, ∃ v, getVal ch embKey = some (Val.vec v) ∧ v.length = 1) ∧
    ∃ index metadata,
      build_index_from_chunks exChunks 1 = Except.ok (index, metadata) ∧
      ntotal index = metadata.length ∧ metadata.length = exChunks.length ∧
      (∀ (i : Nat) (h : i < exChunks.length) (h2 : i < index.vecs.length),
        getVal (exChunks.get ⟨i, h⟩) embKey =
          some (Val.vec (index.vecs.get ⟨i, h2⟩))) ∧
      (∀ (i : Nat) (h : i < exChunks.length) (h3 : i < metadata.length),
        metadata.get ⟨i, h3⟩ =
          (exChunks.get ⟨i, h⟩).filter (fun p => decide (p.1 ≠ embKey))) := by
  have hemb : ∀ ch ∈ exChunks, ∃ v, getVal ch embKey = some (Val.vec v) ∧
      v.length = 1 := by
    intro ch hch
    rw [exChunks] at hch
    rcases List.mem_cons.mp hch with rfl | hch2
    · exact ⟨[1], rfl, rfl⟩
    · rcases List.mem_cons.mp hch2 with rfl | hch3
      · exact ⟨[2], rfl, rfl⟩
      · simp at hch3
  exact ⟨by decide, hemb, build_index_contract exChunks 1 (by decide) hemb⟩

theorem collectResultsNil (metadata : List α) (r : Nat) :
    collectResults metadata r [] = Except.ok [] := rfl

theorem collectResultsCons (metadata : List α) (r : Nat) (idx : Int) (dist : ℚ)
    (rest : List (Int × ℚ)) :
    collectResults metadata r ((idx, dist) :: rest) =
      if idx = -1 then collectResults metadata (r + 1) rest
      else
        match metadata.get? idx.toNat with
        | none => Except.error SearchErr.indexError
        | some m =>
          (collectResults metadata (r + 1) rest).map
            (fun rs => { meta := m, score := dist, rank := r } :: rs) := rfl

theorem collectResultsPad (metadata : List α) :
    ∀ (m r : Nat),
      collectResults metadata r (List.replicate m ((-1 : Int), (0 : ℚ))) =
        Except.ok [] := by
  intro m
  induction m with
  | zero => intro r; rfl
  | succ m ih =>
    intro r
    rw [List.replicate_succ, collectResultsCons, if_pos rfl]
    exact ih (r + 1)

theorem collectResultsSpec {α : Type} (metadata : List α) (pad : Nat) :
    ∀ (pairs : List (Nat × ℚ)) (r : Nat),
      (∀ p ∈ pairs, p.1 < metadata.length) →
      ∃ rs, collectResults metadata r
          (pairs.map (fun p => ((p.1 : Int), p.2)) ++
            List.replicate pad ((-1 : Int), (0 : ℚ))) = Except.ok rs ∧
        rs.length = pairs.length ∧
        ∀ (i : Nat) (h : i < pairs.length) (h2 : i < rs.length),
          (rs.get ⟨i, h2⟩).rank = r + i ∧
          (rs.get ⟨i, h2⟩).score = (pairs.get ⟨i, h⟩).2 ∧
          ∃ (hm : (pairs.get ⟨i, h⟩).1 < metadata.length),
            (rs.get ⟨i, h2⟩).meta = metadata.get ⟨(pairs.get ⟨i, h⟩).1, hm⟩ := by
  intro pairs
  induction pairs with
  | nil =>
    intro r _
    refine ⟨[], ?_, rfl, fun i h => by simp at h⟩
    simpa using collectResultsPad metadata pad r
  | cons p ps ih =>
    intro r hall
    have hp : p.1 < metadata.length := hall p (List.mem_cons_self p ps)
    obtain ⟨rs', hrs', hlen', hidx'⟩ :=
      ih (r + 1) (fun z hz => hall z (List.mem_cons_of_mem p hz))
    refine ⟨{ meta := metadata.get ⟨p.1, hp⟩, score := p.2, rank := r } :: rs',
      ?_, by simpa using hlen', ?_⟩
    · rw [List.map_cons, List.cons_append, collectResultsCons,
        if_neg (by omega), Int.toNat_ofNat, List.get?_eq_get hp, hrs']
      rfl
    · intro i h h2
      cases i with
      | zero =>
        exact ⟨by simp, rfl, hp, rfl⟩
      | succ i =>
        have h' : i < ps.length := by simpa using h
        have h2' : i < rs'.length := by simpa using h2
        obtain ⟨hr, hsc, hm, hme⟩ := hidx' i h' h2'
        refine ⟨?_, ?_, hm, ?_⟩
        · simpa [Nat.add_assoc, Nat.add_comm 1 i] using hr
        · simpa using hsc
        · simpa using hme

theorem faissSearchPairsMem (vecs : List (List ℚ)) (q : List ℚ) (k : Nat) :
    ∀ p ∈ faissSearchPairs vecs q k, ∃ (i : Nat) (h : i < vecs.length),
      p = (i, l2dist q (vecs.get ⟨i, h⟩)) := by
  intro p hp
  rw [faissSearchPairs] at hp
  have hp2 := List.mem_of_mem_take hp
  rw [List.mem_mergeSort] at hp2
  rw [List.mem_map] at hp2
  obtain ⟨i, hi, hpe⟩ := hp2
  rw [List.mem_range] at hi
  refine ⟨i, hi, ?_⟩
  rw [← hpe]
  have hg : vecs.getD i [] = vecs.get ⟨i, hi⟩ := by
    rw [List.getD_eq_get?, List.get?_eq_get hi]
    rfl
  rw [hg]

theorem faissSearchPairsLen (vecs : List (List ℚ)) (q : List ℚ) (k : Nat) :
    (faissSearchPairs vecs q k).length = min k vecs.length := by
  simp [faissSearchPairs]

theorem faissSearchPairsSorted (vecs : List (List ℚ)) (q : List ℚ) (k : Nat) :
    List.Pairwise (fun a b : Nat × ℚ => a.2 ≤ b.2) (faissSearchPairs vecs q k) := by
  rw [faissSearchPairs]
  refine List.Pairwise.imp ?_
    (List.Pairwise.sublist (List.take_sublist k _) (List.sorted_mergeSort ?_ ?_ _))
  · intro a b h
    simpa using h
  · intro a b c hab hbc
    simp only [decide_eq_true_eq] at hab hbc ⊢
    exact le_trans hab hbc
  · intro a b
    simp only [Bool.or_eq_true, decide_eq_true_eq]
    exact le_total a.2 b.2

/-- C3: searching a loaded (consistent) index of `n` vectors with a query
of the index's dimension and `topK = k > 0` succeeds with exactly
`min(n, k)` results, ordered by non-decreasing L2 distance; the result at
output position `j` carries rank `j`, and every result carries the metadata
record at the matched vector's position together with the raw distance to
that vector.  Sentinel `-1` slots are skipped, never padded. -/
theorem search_index_contract {α : Type} (index : FaissIndex) (metadata : List α)
    (q : List ℚ) (top_k : Int)
    (hcons : metadata.length = index.vecs.length)
    (hk : 0 < top_k)
    (hq : q.length = index.d)
    (hvecs : ∀ v ∈ index.vecs, v.length = index.d) :
    ∃ rs, search_index index metadata q top_k = Except.ok rs ∧
      rs.length = min (ntotal index) top_k.toNat ∧
      List.Pairwise (fun x y : ℚ => x ≤ y) (rs.map (fun r => r.score)) ∧
      (∀ (i : Nat) (h : i < rs.length), (rs.get ⟨i, h⟩).rank = i) ∧
      ∀ r ∈ rs, ∃ (i : Nat) (h1 : i < index.vecs.length) (h2 : i < metadata.length),
        r.meta = metadata.get ⟨i, h2⟩ ∧
        r.score = l2dist q (index.vecs.get ⟨i, h1⟩) := by
  have hplen := faissSearchPairsLen index.vecs q top_k.toNat
  have hmem : ∀ p ∈ faissSearchPairs index.vecs q top_k.toNat,
      p.1 < metadata.length := by
    intro p hp
    obtain ⟨i, hi, rfl⟩ := faissSearchPairsMem _ _ _ p hp
    omega
  obtain ⟨rs, hrs, hlen, hidx⟩ := collectResultsSpec metadata
    (top_k.toNat - (faissSearchPairs index.vecs q top_k.toNat).length)
    (faissSearchPairs index.vecs q top_k.toNat) 0 hmem
  refine ⟨rs, ?_, ?_, ?_, ?_, ?_⟩
  · rw [search_index, if_neg (by omega), faissSearchSlots]
    rw [List.length_map]
    exact hrs
  · rw [hlen, hplen, ntotal]
    omega
  · have hsp := faissSearchPairsSorted index.vecs q top_k.toNat
    have heq : rs.map (fun r => r.score) =
        (faissSearchPairs index.vecs q top_k.toNat).map (fun p => p.2) := by
      apply List.ext_get
      · simp [hlen]
      · intro n h1 h2
        have hn : n < (faissSearchPairs index.vecs q top_k.toNat).length := by
          simpa using h2
        have hn2 : n < rs.length := by simpa using h1
        have := (hidx n hn hn2).2.1
        simp only [List.get_eq_getElem] at this ⊢
        simp only [List.getElem_map]
        exact this
    rw [heq, List.pairwise_map]
    exact hsp
  · intro i h
    have hi : i < (faissSearchPairs index.vecs q top_k.toNat).length := by omega
    have := (hidx i hi h).1
    simpa using this
  · intro r hr
    obtain ⟨n, hn⟩ := List.mem_iff_get.mp hr
    have hn1 : n.1 < (faissSearchPairs index.vecs q top_k.toNat).length := by
      have := n.2
      omega
    obtain ⟨hrank, hscore, hm, hmeta⟩ := hidx n.1 hn1 n.2
    obtain ⟨i, hiv, hpe⟩ := faissSearchPairsMem index.vecs q top_k.toNat
      ((faissSearchPairs index.vecs q top_k.toNat).get ⟨n.1, hn1⟩)
      (List.get_mem _ _ _)
    simp only [hpe] at hscore hmeta
    refine ⟨i, hiv, by omega, ?_, ?_⟩
    · rw [← hn]
      have : rs.get n = rs.get ⟨n.1, n.2⟩ := by
        congr
      rw [this, hmeta]
    · rw [← hn]
      have : rs.get n = rs.get ⟨n.1, n.2⟩ := by
        congr
      rw [this, hscore]

/-- Witness for C3 at a concrete two-vector index queried with `topK = 5`. -/
theorem search_index_contract_witness :
    ([10, 20] : List Nat).length =
        ({ d := 1, vecs := [[3], [1]] } : FaissIndex).vecs.length ∧
    (0 : Int) < 5 ∧
    ([(0 : ℚ)]).length = ({ d := 1, vecs := [[3], [1]] } : FaissIndex).d ∧
    (∀ v ∈ ({ d := 1, vecs := [[3], [1]] } : FaissIndex).vecs,
      v.length = ({ d := 1, vecs := [[3], [1]] } : FaissIndex).d) ∧
    ∃ rs, search_index { d := 1, vecs := [[3], [1]] } ([10, 20] : List Nat)
        [(0 : ℚ)] 5 = Except.ok rs ∧
      rs.length = min (ntotal { d := 1, vecs := [[3], [1]] }) ((5 : Int)).toNat ∧
      List.Pairwise (fun x y : ℚ => x ≤ y) (rs.map (fun r => r.score)) ∧
      (∀ (i : Nat) (h : i < rs.length), (rs.get ⟨i, h⟩).rank = i) ∧
      ∀ r ∈ rs, ∃ (i : Nat)
        (h1 : i < ({ d := 1, vecs := [[3], [1]] } : FaissIndex).vecs.length)
        (h2 : i < ([10, 20] : List Nat).length),
        r.meta = ([10, 20] : List Nat).get ⟨i, h2⟩ ∧
        r.score = l2dist [(0 : ℚ)]
          (({ d := 1, vecs := [[3], [1]] } : FaissIndex).vecs.get ⟨i, h1⟩) :=
  ⟨by decide, by decide, by decide, by decide,
    search_index_contract { d := 1, vecs := [[3], [1]] } ([10, 20] : List Nat)
      [(0 : ℚ)] 5 (by decide) (by decide) (by decide) (by decide)⟩
